import Mathlib

/-!
Shallow embedding of the Music AI analysis core (audio loading, waveform
preview, key estimation, chord detection, Demucs model caching) together
with theorems settling the specification claims.

Numeric arrays are embedded as lists of rationals (`List ℚ`), channel-first
matrices as `List (List ℚ)`.  Machine floating point is modelled by exact
rational arithmetic; the only place the source computes an irrational value
(`np.linalg.norm`, a Euclidean norm used purely as a scaling factor in
`_estimate_key`) is abstracted as an explicit nonnegative parameter.
-/

namespace MusicAI

/-- Dot product of two vectors, as computed by `np.dot` on 1-d arrays
(pairwise products, truncating at the shorter length, then summed). -/
def dot (a b : List ℚ) : ℚ := (List.zipWith (· * ·) a b).sum

/-- `np.roll(p, i)` on a 1-d array: the last `i % n` entries move to the
front.  Expressed through `List.rotate`, which moves the first `k` entries
to the back: rolling right by `i` is rotating left by `n - i % n`. -/
def np_roll (p : List ℚ) (i : ℕ) : List ℚ :=
  if p.length = 0 then p else p.rotate (p.length - i % p.length)

/-- Python's `for x in l: if f x > f acc: acc = x` scan: the accumulator is
replaced exactly when the candidate's value is strictly greater.  This is
the loop CPython's `max(..., key=f)` runs after taking the first element as
the initial accumulator, and also the literal shape of the chord-detection
inner loop. -/
def pyfoldmax (f : α → ℚ) (acc : α) (l : List α) : α :=
  l.foldl (fun a y => if f y > f a then y else a) acc

/-- CPython `max(l, key=f)`: first element is the initial best; a later
element replaces it only on a strictly greater key, so the first maximal
element wins ties.  Empty input has no maximum (`none`; CPython raises). -/
def pymax_by (f : α → ℚ) : List α → Option α
  | [] => none
  | x :: xs => some (pyfoldmax f x xs)

/-! ### Semantics of the first-max scan -/

/-- The `pyfoldmax` scan returns either the initial accumulator (which then
weakly dominates every candidate) or the first candidate that strictly
exceeds the accumulator and every earlier candidate, and weakly dominates
all candidates. -/
theorem pyfoldmax_spec (f : α → ℚ) (l : List α) (acc : α) :
    (pyfoldmax f acc l = acc ∧ ∀ y ∈ l, f y ≤ f acc) ∨
    (∃ (k : ℕ) (hk : k < l.length),
      pyfoldmax f acc l = l.get ⟨k, hk⟩ ∧
      f acc < f (pyfoldmax f acc l) ∧
      (∀ (j : ℕ) (hj : j < l.length), f (l.get ⟨j, hj⟩) ≤ f (pyfoldmax f acc l)) ∧
      (∀ (j : ℕ) (hj : j < l.length), j < k → f (l.get ⟨j, hj⟩) < f (pyfoldmax f acc l))) := by
  induction l generalizing acc with
  | nil => exact Or.inl ⟨rfl, by simp⟩
  | cons x xs ih =>
    have hstep : pyfoldmax f acc (x :: xs)
        = pyfoldmax f (if f x > f acc then x else acc) xs := rfl
    by_cases hx : f x > f acc
    · rw [hstep, if_pos hx]
      rcases ih x with ⟨heq, hdom⟩ | ⟨k, hk, heq, hlt, hdom, hfirst⟩
      · refine Or.inr ⟨0, by simp, ?_, ?_, ?_, ?_⟩
        · simpa using heq
        · rw [heq]; exact hx
        · intro j hj
          rw [heq]
          match j, hj with
          | 0, _ => simp
          | j + 1, hj =>
            simpa using hdom (xs.get ⟨j, by simpa using hj⟩) (xs.get_mem j (by simpa using hj))
        · intro j hj hj0; omega
      · refine Or.inr ⟨k + 1, by simpa using hk, ?_, ?_, ?_, ?_⟩
        · simpa using heq
        · exact lt_trans hx hlt
        · intro j hj
          match j, hj with
          | 0, _ => exact le_of_lt hlt
          | j + 1, hj => simpa using hdom j (by simpa using hj)
        · intro j hj hjk
          match j, hj with
          | 0, _ => exact hlt
          | j + 1, hj => exact hfirst j (by simpa using hj) (by omega)
    · rw [hstep, if_neg hx]
      push_neg at hx
      rcases ih acc with ⟨heq, hdom⟩ | ⟨k, hk, heq, hlt, hdom, hfirst⟩
      · refine Or.inl ⟨heq, ?_⟩
        intro y hy
        rcases List.mem_cons.mp hy with h | h
        · exact h ▸ hx
        · exact hdom y h
      · refine Or.inr ⟨k + 1, by simpa using hk, ?_, ?_, ?_, ?_⟩
        · simpa using heq
        · exact hlt
        · intro j hj
          match j, hj with
          | 0, _ => exact le_of_lt (lt_of_le_of_lt hx hlt)
          | j + 1, hj => simpa using hdom j (by simpa using hj)
        · intro j hj hjk
          match j, hj with
          | 0, _ => exact lt_of_le_of_lt hx hlt
          | j + 1, hj => exact hfirst j (by simpa using hj) (by omega)

/-- `pymax_by` on a nonempty list returns the first element attaining the
maximum of the key function. -/
theorem pymax_by_spec (f : α → ℚ) (x : α) (xs : List α) :
    ∃ (m : α) (k : ℕ) (hk : k < (x :: xs).length),
      pymax_by f (x :: xs) = some m ∧
      m = (x :: xs).get ⟨k, hk⟩ ∧
      (∀ (j : ℕ) (hj : j < (x :: xs).length), f ((x :: xs).get ⟨j, hj⟩) ≤ f m) ∧
      (∀ (j : ℕ) (hj : j < (x :: xs).length), j < k → f ((x :: xs).get ⟨j, hj⟩) < f m) := by
  rcases pyfoldmax_spec f xs x with ⟨heq, hdom⟩ | ⟨k, hk, heq, hlt, hdom, hfirst⟩
  · refine ⟨pyfoldmax f x xs, 0, by simp, rfl, by simpa using heq, ?_, ?_⟩
    · intro j hj
      match j, hj with
      | 0, _ => simp [heq]
      | j + 1, hj =>
        rw [heq]
        simpa using hdom (xs.get ⟨j, by simpa using hj⟩) (xs.get_mem j (by simpa using hj))
    · intro j hj hj0; omega
  · refine ⟨pyfoldmax f x xs, k + 1, by simpa using hk, rfl, by simpa using heq, ?_, ?_⟩
    · intro j hj
      match j, hj with
      | 0, _ => exact le_of_lt hlt
      | j + 1, hj => simpa using hdom j (by simpa using hj)
    · intro j hj hjk
      match j, hj with
      | 0, _ => exact hlt
      | j + 1, hj => exact hfirst j (by simpa using hj) (by omega)

/-! ### `waveform_preview` (src/ml/src/musicai_ml/utils/audio_io.py) -/

/-- `audio.shape[1]` of a channel-first buffer: the common length of the
channel rows (numpy guarantees uniformity; we read it off the first row,
`0` for a buffer with no channels). -/
def numSamples (audio : List (List ℚ)) : ℕ := (audio.head?.map List.length).getD 0

/-- One channel of `trimmed.reshape(channels, actual_points, chunk_size).mean(axis=2)`:
chunk `i` is the slice `[i*chunk_size, (i+1)*chunk_size)`, reduced by
arithmetic mean. -/
def chunk_means (ch : List ℚ) (actual_points chunk_size : ℕ) : List ℚ :=
  (List.range actual_points).map
    (fun i => ((ch.drop (i * chunk_size)).take chunk_size).sum / (chunk_size : ℚ))

/-- Embedding of `waveform_preview(audio, max_points)`: if the sample count
is at most `max_points` the buffer is returned unchanged; otherwise
`chunk_size = samples // max_points` (floored to 1), the tail beyond
`actual_points * chunk_size` is trimmed, and each chunk is reduced by mean,
per channel. -/
def waveform_preview (audio : List (List ℚ)) (max_points : ℕ) : List (List ℚ) :=
  let samples := numSamples audio
  if samples ≤ max_points then audio
  else
    let cs := samples / max_points
    let chunk_size := if cs = 0 then 1 else cs
    let actual_points := samples / chunk_size
    audio.map (fun ch => chunk_means (ch.take (actual_points * chunk_size)) actual_points chunk_size)

/-! ### `_estimate_key` (src/ml/src/musicai_ml/key_bpm_service.py) -/

/-- Krumhansl major profile, exact rationals of the source constants. -/
def KRUMHANSL_MAJOR : List ℚ :=
  [635/100, 223/100, 348/100, 233/100, 438/100, 409/100,
   252/100, 519/100, 239/100, 366/100, 229/100, 288/100]

/-- Krumhansl minor profile, exact rationals of the source constants. -/
def KRUMHANSL_MINOR : List ℚ :=
  [633/100, 268/100, 352/100, 538/100, 260/100, 353/100,
   254/100, 475/100, 398/100, 269/100, 334/100, 317/100]

/-- Pitch-class names, index = tonic. -/
def KEY_NAMES : List String :=
  ["C", "C#", "D", "D#", "E", "F"] ++ ["F#", "G", "G#", "A", "A#", "B"]

/-- `chroma.mean(axis=1)`: per-row arithmetic mean of a `(12, frames)` matrix. -/
def mean_axis1 (m : List (List ℚ)) : List ℚ :=
  m.map (fun row => row.sum / (row.length : ℚ))

/-- `profile_major = _KRUMHANSL_MAJOR / np.linalg.norm(_KRUMHANSL_MAJOR)`.
The norm (irrational) is the parameter `nMaj`. -/
def profile_major (nMaj : ℚ) : List ℚ := KRUMHANSL_MAJOR.map (· / nMaj)

/-- `profile_minor = _KRUMHANSL_MINOR / np.linalg.norm(_KRUMHANSL_MINOR)`.
The norm (irrational) is the parameter `nMin`. -/
def profile_minor (nMin : ℚ) : List ℚ := KRUMHANSL_MINOR.map (· / nMin)

/-- `chroma_norm = chroma_mean / (np.linalg.norm(chroma_mean) + 1e-9)`.
The norm (irrational) is the parameter `nChr`; the `1e-9` epsilon is kept
exactly. -/
def chroma_norm_vec (nChr : ℚ) (chroma : List (List ℚ)) : List ℚ :=
  (mean_axis1 chroma).map (· / (nChr + 1 / 1000000000))

/-- The 24-entry `scores` list of `_estimate_key`, built scanning tonics
`i = 0..11` ascending and appending the major then the minor candidate for
each tonic — exactly the source's loop order.

The three Euclidean norms the source computes with `np.linalg.norm`
(of the two fixed profiles and of the mean chroma) are irrational in
general, so they enter the embedding as explicit parameters
`nMaj nMin nChr`; they are used exactly where the source divides by them. -/
def key_scores (nMaj nMin nChr : ℚ) (chroma : List (List ℚ)) : List (String × ℕ × ℚ) :=
  (List.range 12).flatMap (fun i =>
    [("major", i, dot (chroma_norm_vec nChr chroma) (np_roll (profile_major nMaj) i)),
     ("minor", i, dot (chroma_norm_vec nChr chroma) (np_roll (profile_minor nMin) i))])

/-- `mode, tonic, best = max(scores, key=lambda x: x[2])` of `_estimate_key`.
The list is never empty, so the default of `getD` is unreachable. -/
def estimate_key_choice (nMaj nMin nChr : ℚ) (chroma : List (List ℚ)) : String × ℕ × ℚ :=
  (pymax_by (fun s => s.2.2) (key_scores nMaj nMin nChr chroma)).getD ("major", 0, 0)

/-- Embedding of `_estimate_key`: the `"{tonic} {mode}"` label and the
confidence `max(0, min(1, (best + 1) / 2))`. -/
def estimate_key (nMaj nMin nChr : ℚ) (chroma : List (List ℚ)) : String × ℚ :=
  let c := estimate_key_choice nMaj nMin nChr chroma
  (KEY_NAMES.getD c.2.1 "" ++ " " ++ c.1, max 0 (min 1 ((c.2.2 + 1) / 2)))

/-! ### Structure of the scores list -/

theorem flat_pairs_length (a b : β → α) (l : List β) :
    (l.flatMap (fun i => [a i, b i])).length = 2 * l.length := by
  induction l with
  | nil => simp
  | cons x t ih => simp [ih]; omega

theorem flat_pairs_get (a b : β → α) (l : List β) (j : ℕ)
    (hj : j < (l.flatMap (fun i => [a i, b i])).length)
    (hj2 : j / 2 < l.length) :
    (l.flatMap (fun i => [a i, b i])).get ⟨j, hj⟩ =
      if j % 2 = 0 then a (l.get ⟨j / 2, hj2⟩) else b (l.get ⟨j / 2, hj2⟩) := by
  induction l generalizing j with
  | nil => simp at hj2
  | cons x t ih =>
    have hflat : (x :: t).flatMap (fun i => [a i, b i])
        = a x :: b x :: t.flatMap (fun i => [a i, b i]) := by simp
    match j with
    | 0 => simp [hflat]
    | 1 => simp [hflat]
    | j + 2 =>
      have hj' : j < (t.flatMap (fun i => [a i, b i])).length := by
        have := hj; rw [hflat] at this; simpa using this
      have hj2' : j / 2 < t.length := by
        have : (j + 2) / 2 = j / 2 + 1 := by omega
        rw [this] at hj2; simpa using hj2
      have hmod : (j + 2) % 2 = j % 2 := by omega
      have hdiv : (j + 2) / 2 = j / 2 + 1 := by omega
      have hgl : ((x :: t).flatMap (fun i => [a i, b i])).get ⟨j + 2, hj⟩
          = (t.flatMap (fun i => [a i, b i])).get ⟨j, hj'⟩ := by
        simp [hflat]
      rw [hgl, ih j hj' hj2', hmod]
      have hgt : (x :: t).get ⟨(j + 2) / 2, hj2⟩ = t.get ⟨j / 2, hj2'⟩ := by
        simp [hdiv]
      rw [hgt]

theorem key_scores_length (nMaj nMin nChr : ℚ) (chroma : List (List ℚ)) :
    (key_scores nMaj nMin nChr chroma).length = 24 := by
  unfold key_scores
  rw [flat_pairs_length]
  simp

theorem key_scores_get (nMaj nMin nChr : ℚ) (chroma : List (List ℚ)) (j : ℕ)
    (hj : j < (key_scores nMaj nMin nChr chroma).length) (hj2 : j / 2 < 12) :
    (key_scores nMaj nMin nChr chroma).get ⟨j, hj⟩ =
      if j % 2 = 0
      then ("major", j / 2,
        dot (chroma_norm_vec nChr chroma) (np_roll (profile_major nMaj) (j / 2)))
      else ("minor", j / 2,
        dot (chroma_norm_vec nChr chroma) (np_roll (profile_minor nMin) (j / 2))) := by
  have hj2' : j / 2 < (List.range 12).length := by simpa using hj2
  have h := flat_pairs_get
    (fun i => ("major", i, dot (chroma_norm_vec nChr chroma) (np_roll (profile_major nMaj) i)))
    (fun i => ("minor", i, dot (chroma_norm_vec nChr chroma) (np_roll (profile_minor nMin) i)))
    (List.range 12) j hj hj2'
  rw [show (key_scores nMaj nMin nChr chroma).get ⟨j, hj⟩
      = ((List.range 12).flatMap (fun i =>
          [("major", i, dot (chroma_norm_vec nChr chroma) (np_roll (profile_major nMaj) i)),
           ("minor", i, dot (chroma_norm_vec nChr chroma) (np_roll (profile_minor nMin) i))])).get
        ⟨j, hj⟩ from rfl, h]
  simp

/-- `pymax_by` semantics restated for any nonempty list. -/
theorem pymax_by_spec_ne (f : α → ℚ) (l : List α) (h : l ≠ []) :
    ∃ (m : α) (k : ℕ) (hk : k < l.length),
      pymax_by f l = some m ∧
      m = l.get ⟨k, hk⟩ ∧
      (∀ (j : ℕ) (hj : j < l.length), f (l.get ⟨j, hj⟩) ≤ f m) ∧
      (∀ (j : ℕ) (hj : j < l.length), j < k → f (l.get ⟨j, hj⟩) < f m) := by
  match l with
  | [] => exact absurd rfl h
  | x :: xs => exact pymax_by_spec f x xs

/-- C4: `_estimate_key` selects the maximum-scoring (mode, tonic) pair among
the 24 candidates, and on exactly-equal maximal scores the first candidate
in canonical order wins: the chosen index `k` is such that every earlier
candidate scores strictly less and every candidate scores at most the
chosen one; the final conjunct identifies list position with canonical
order — position `j` holds tonic `j / 2`, major at even positions (before)
and minor at odd positions (after), tonics ascending `0..11`. -/
theorem estimate_key_picks_first_max (nMaj nMin nChr : ℚ) (chroma : List (List ℚ)) :
    ∃ (k : ℕ) (hk : k < (key_scores nMaj nMin nChr chroma).length),
      estimate_key_choice nMaj nMin nChr chroma
          = (key_scores nMaj nMin nChr chroma).get ⟨k, hk⟩ ∧
      (∀ (j : ℕ) (hj : j < (key_scores nMaj nMin nChr chroma).length),
        ((key_scores nMaj nMin nChr chroma).get ⟨j, hj⟩).2.2
          ≤ (estimate_key_choice nMaj nMin nChr chroma).2.2) ∧
      (∀ (j : ℕ) (hj : j < (key_scores nMaj nMin nChr chroma).length), j < k →
        ((key_scores nMaj nMin nChr chroma).get ⟨j, hj⟩).2.2
          < (estimate_key_choice nMaj nMin nChr chroma).2.2) ∧
      (∀ (j : ℕ) (hj : j < (key_scores nMaj nMin nChr chroma).length),
        ((key_scores nMaj nMin nChr chroma).get ⟨j, hj⟩).1
            = (if j % 2 = 0 then "major" else "minor") ∧
        ((key_scores nMaj nMin nChr chroma).get ⟨j, hj⟩).2.1 = j / 2) := by
  have hlen := key_scores_length nMaj nMin nChr chroma
  have hne : key_scores nMaj nMin nChr chroma ≠ [] := by
    intro hnil
    rw [hnil] at hlen
    simp at hlen
  obtain ⟨m, k, hk, hsome, hmk, hdom, hfirst⟩ :=
    pymax_by_spec_ne (fun s => s.2.2) (key_scores nMaj nMin nChr chroma) hne
  have hchoice : estimate_key_choice nMaj nMin nChr chroma = m := by
    unfold estimate_key_choice
    rw [hsome]
    rfl
  refine ⟨k, hk, by rw [hchoice]; exact hmk, ?_, ?_, ?_⟩
  · intro j hj
    rw [hchoice]
    exact hdom j hj
  · intro j hj hjk
    rw [hchoice]
    exact hfirst j hj hjk
  · intro j hj
    have hj2 : j / 2 < 12 := by
      rw [hlen] at hj
      omega
    rw [key_scores_get nMaj nMin nChr chroma j hj hj2]
    by_cases hpar : j % 2 = 0
    · simp [hpar]
    · simp [hpar]

/-- C1: refuted by evaluation — `waveform_preview` on a single-channel
buffer of 5 samples with `max_points = 3` takes the downsampling branch
with `chunk_size = 5 // 3 = 1` and `actual_points = 5 // 1 = 5`, so the
preview has 5 points per channel although the claim (and the function's own
docstring, "Maximum number of points to emit per channel") requires at most
3. -/
theorem waveform_preview_exceeds_max_points :
    (waveform_preview [[1, 0, 1, 0, 1]] 3).map List.length = [5] ∧ ¬ (5 ≤ 3) := by
  exact ⟨rfl, by omega⟩

/-! ### `detect_chords` (src/ml/src/musicai_ml/chords_service.py) -/

/-- The source's `chord_names` list (same note names, its own copy). -/
def chord_names : List String :=
  ["C", "C#", "D", "D#"] ++ ["E", "F", "F#", "G"] ++ ["G#", "A", "A#", "B"]

/-- Major-triad template `[1,0,0,0,1,0,0,1,0,0,0,0]`. -/
def major_template : List ℚ := [1, 0, 0, 0, 1, 0, 0, 1, 0, 0, 0, 0]

/-- Minor-triad template `[1,0,0,1,0,0,0,1,0,0,0,0]`. -/
def minor_template : List ℚ := [1, 0, 0, 1, 0, 0, 0, 1, 0, 0, 0, 0]

/-- One chord segment of the output: `{time, chord, confidence}`. -/
structure Segment where
  time : ℚ
  chord : String
  confidence : ℚ
deriving DecidableEq

/-- The inner loop of `detect_chords` for one chroma frame: starting from
`best_chord = "N"`, `best_score = 0.0`, scan roots `0..11`; at each root
first compare the major-template score, then the minor-template score
against the current best, replacing it exactly on a strictly greater score. -/
def best_chord_of_frame (frame : List ℚ) : String × ℚ :=
  (List.range 12).foldl
    (fun acc root =>
      let maj_score := dot frame (np_roll major_template root)
      let acc1 := if maj_score > acc.2 then (chord_names.getD root "", maj_score) else acc
      let min_score := dot frame (np_roll minor_template root)
      if min_score > acc1.2 then (chord_names.getD root "" ++ "m", min_score) else acc1)
    ("N", 0)

/-- The 24 candidate (label, score) pairs of one frame, in the exact order
the source's loop examines them: roots ascending `0..11`, major before
minor at each root. -/
def chord_candidates (frame : List ℚ) : List (String × ℚ) :=
  (List.range 12).flatMap (fun root =>
    [(chord_names.getD root "", dot frame (np_roll major_template root)),
     (chord_names.getD root "" ++ "m", dot frame (np_roll minor_template root))])

/-- The per-frame labelling pass of `detect_chords`: one segment per frame,
tagged with the frame's time and confidence `min(1, best_score / 3)`. -/
def frame_segments (times : List ℚ) (frames : List (List ℚ)) : List Segment :=
  List.zipWith
    (fun t frame =>
      let bc := best_chord_of_frame frame
      { time := t, chord := bc.1, confidence := min 1 (bc.2 / 3) })
    times frames

/-- The merging pass of `detect_chords`: walk the per-frame segments,
skipping any segment whose chord equals the chord of the last segment kept
so far. -/
def merge_consecutive (segments : List Segment) : List Segment :=
  segments.foldl
    (fun merged seg =>
      if merged.getLast?.map Segment.chord = some seg.chord then merged
      else merged ++ [seg])
    []

/-- `detect_chords` from the chroma frames and frame times on: per-frame
labelling followed by the merge of consecutive identical labels.  (The
chromagram itself is produced by `librosa.feature.chroma_cqt`, outside the
embedded algorithm; the claims quantify over arbitrary frame data.) -/
def detect_chords_segments (times : List ℚ) (frames : List (List ℚ)) : List Segment :=
  merge_consecutive (frame_segments times frames)

/-! ### The frame scan is the first-max scan over the candidate list -/

theorem pyfoldmax_flat_pairs (f : α → ℚ) (u v : β → α) (l : List β) (acc : α) :
    pyfoldmax f acc (l.flatMap (fun i => [u i, v i]))
      = l.foldl
          (fun a i =>
            let a1 := if f (u i) > f a then u i else a
            if f (v i) > f a1 then v i else a1)
          acc := by
  induction l generalizing acc with
  | nil => rfl
  | cons x t ih =>
    rw [show (x :: t).flatMap (fun i => [u i, v i])
        = u x :: v x :: t.flatMap (fun i => [u i, v i]) from by simp]
    show pyfoldmax f _ _ = _
    rw [show pyfoldmax f acc (u x :: v x :: t.flatMap (fun i => [u i, v i]))
        = pyfoldmax f
            (let a1 := if f (u x) > f acc then u x else acc
             if f (v x) > f a1 then v x else a1)
            (t.flatMap (fun i => [u i, v i])) from rfl]
    rw [ih]
    rfl

theorem best_chord_of_frame_eq_pyfoldmax (frame : List ℚ) :
    best_chord_of_frame frame = pyfoldmax Prod.snd ("N", 0) (chord_candidates frame) := by
  rw [show chord_candidates frame
      = (List.range 12).flatMap (fun root =>
          [(chord_names.getD root "", dot frame (np_roll major_template root)),
           (chord_names.getD root "" ++ "m", dot frame (np_roll minor_template root))])
      from rfl]
  rw [pyfoldmax_flat_pairs]
  rfl

theorem chord_candidates_length (frame : List ℚ) :
    (chord_candidates frame).length = 24 := by
  unfold chord_candidates
  rw [flat_pairs_length]
  simp

theorem chord_candidates_get (frame : List ℚ) (j : ℕ)
    (hj : j < (chord_candidates frame).length) (hj2 : j / 2 < 12) :
    (chord_candidates frame).get ⟨j, hj⟩ =
      if j % 2 = 0
      then (chord_names.getD (j / 2) "", dot frame (np_roll major_template (j / 2)))
      else (chord_names.getD (j / 2) "" ++ "m", dot frame (np_roll minor_template (j / 2))) := by
  have hj2' : j / 2 < (List.range 12).length := by simpa using hj2
  have h := flat_pairs_get
    (fun root => (chord_names.getD root "", dot frame (np_roll major_template root)))
    (fun root => (chord_names.getD root "" ++ "m", dot frame (np_roll minor_template root)))
    (List.range 12) j hj hj2'
  rw [show (chord_candidates frame).get ⟨j, hj⟩
      = ((List.range 12).flatMap (fun root =>
          [(chord_names.getD root "", dot frame (np_roll major_template root)),
           (chord_names.getD root "" ++ "m", dot frame (np_roll minor_template root))])).get
        ⟨j, hj⟩ from rfl, h]
  simp

/-- C5: for every chroma frame, the per-frame scan of `detect_chords`
either keeps the `"N"` sentinel (exactly when no candidate score is
strictly positive) or returns the first maximal candidate of the scan
order; the final conjunct identifies list position with the scan order —
position `j` is rotation `j / 2`, major at even positions (checked first)
and minor (`"m"` suffix) at odd positions, rotations ascending `0..11`. -/
theorem best_chord_first_max (frame : List ℚ) :
    (∀ (j : ℕ) (hj : j < (chord_candidates frame).length),
      ((chord_candidates frame).get ⟨j, hj⟩).1
        = (if j % 2 = 0 then chord_names.getD (j / 2) ""
           else chord_names.getD (j / 2) "" ++ "m")) ∧
    (((∀ c ∈ chord_candidates frame, c.2 ≤ 0) ∧ best_chord_of_frame frame = ("N", 0)) ∨
     (∃ (k : ℕ) (hk : k < (chord_candidates frame).length),
       best_chord_of_frame frame = (chord_candidates frame).get ⟨k, hk⟩ ∧
       0 < (best_chord_of_frame frame).2 ∧
       (∀ (j : ℕ) (hj : j < (chord_candidates frame).length),
         ((chord_candidates frame).get ⟨j, hj⟩).2 ≤ (best_chord_of_frame frame).2) ∧
       (∀ (j : ℕ) (hj : j < (chord_candidates frame).length), j < k →
         ((chord_candidates frame).get ⟨j, hj⟩).2 < (best_chord_of_frame frame).2))) := by
  constructor
  · intro j hj
    have hj2 : j / 2 < 12 := by
      have := chord_candidates_length frame
      omega
    rw [chord_candidates_get frame j hj hj2]
    by_cases hpar : j % 2 = 0
    · simp [hpar]
    · simp [hpar]
  · rw [best_chord_of_frame_eq_pyfoldmax]
    rcases pyfoldmax_spec Prod.snd (chord_candidates frame) ("N", 0) with
      ⟨heq, hdom⟩ | ⟨k, hk, heq, hlt, hdom, hfirst⟩
    · exact Or.inl ⟨fun c hc => hdom c hc, heq⟩
    · exact Or.inr ⟨k, hk, heq, hlt, hdom, hfirst⟩

/-! ### The merge pass is run-compression keeping each run's first segment -/

theorem merge_loop_destutter (l : List Segment) :
    ∀ (acc : List Segment) (a : Segment),
      l.foldl
        (fun merged seg =>
          if merged.getLast?.map Segment.chord = some seg.chord then merged
          else merged ++ [seg])
        (acc ++ [a])
      = acc ++ List.destutter' (fun x y => x.chord ≠ y.chord) a l := by
  induction l with
  | nil =>
    intro acc a
    simp [List.destutter']
  | cons b t ih =>
    intro acc a
    rw [List.foldl_cons]
    have hlast : (acc ++ [a]).getLast? = some a := List.getLast?_concat acc
    by_cases hc : a.chord = b.chord
    · rw [if_pos (by rw [hlast]; simp [hc])]
      rw [ih acc a, List.destutter'_cons, if_neg (by simp [hc])]
    · rw [if_neg (by rw [hlast]; simp [hc])]
      rw [List.append_assoc acc [a] [b]]
      rw [show ([a] ++ [b] : List Segment) = [a] ++ [b] from rfl]
      rw [← List.append_assoc acc [a] [b]]
      rw [ih (acc ++ [a]) b, List.destutter'_cons, if_pos (by simpa using hc)]
      simp

theorem merge_consecutive_eq_destutter (l : List Segment) :
    merge_consecutive l = l.destutter (fun x y => x.chord ≠ y.chord) := by
  cases l with
  | nil => rfl
  | cons a t =>
    unfold merge_consecutive
    rw [List.foldl_cons]
    rw [show (if ([] : List Segment).getLast?.map Segment.chord = some a.chord
          then ([] : List Segment) else [] ++ [a]) = [] ++ [a] from by simp]
    rw [merge_loop_destutter t [] a, List.destutter_cons']
    simp

/-- C7: the merge pass of `detect_chords` equals `List.destutter` under the
"chords differ" relation — Mathlib's canonical compression that keeps
exactly the first element (hence the first frame's whole record, time
included) of every maximal run of chord-equal segments — and consequently
no two adjacent segments of the output share a chord label. -/
theorem detect_chords_merges_runs (times : List ℚ) (frames : List (List ℚ)) :
    detect_chords_segments times frames
        = (frame_segments times frames).destutter (fun x y => x.chord ≠ y.chord) ∧
      (detect_chords_segments times frames).Chain' (fun x y => x.chord ≠ y.chord) := by
  refine ⟨merge_consecutive_eq_destutter _, ?_⟩
  rw [show detect_chords_segments times frames
      = merge_consecutive (frame_segments times frames) from rfl]
  rw [merge_consecutive_eq_destutter]
  exact List.destutter_is_chain' (fun x y : Segment => x.chord ≠ y.chord)
    (frame_segments times frames)

/-! ### Confidence bounds -/

theorem dot_nonneg : ∀ (a b : List ℚ),
    (∀ x ∈ a, 0 ≤ x) → (∀ x ∈ b, 0 ≤ x) → 0 ≤ dot a b := by
  intro a
  induction a with
  | nil => intro b _ _; simp [dot]
  | cons x t ih =>
    intro b ha hb
    cases b with
    | nil => simp [dot]
    | cons y s =>
      rw [show dot (x :: t) (y :: s) = x * y + dot t s from by simp [dot]]
      have hx : 0 ≤ x := ha x (List.mem_cons_self x t)
      have hy : 0 ≤ y := hb y (List.mem_cons_self y s)
      have ht : 0 ≤ dot t s :=
        ih s (fun z hz => ha z (List.mem_cons_of_mem _ hz))
          (fun z hz => hb z (List.mem_cons_of_mem _ hz))
      exact add_nonneg (mul_nonneg hx hy) ht

theorem mem_np_roll {p : List ℚ} {i : ℕ} {x : ℚ} (h : x ∈ np_roll p i) : x ∈ p := by
  unfold np_roll at h
  by_cases hp : p.length = 0
  · rw [if_pos hp] at h; exact h
  · rw [if_neg hp] at h; exact List.mem_rotate.mp h

theorem profile_major_nonneg (nMaj : ℚ) (h : 0 ≤ nMaj) :
    ∀ x ∈ profile_major nMaj, 0 ≤ x := by
  intro x hx
  obtain ⟨k, hk, rfl⟩ := List.mem_map.mp hx
  have hk0 : 0 ≤ k := by
    have hall : ∀ y ∈ KRUMHANSL_MAJOR, 0 ≤ y := by
      intro y hy
      fin_cases hy <;> norm_num
    exact hall k hk
  exact div_nonneg hk0 h

theorem chroma_norm_vec_nonneg (nChr : ℚ) (chroma : List (List ℚ)) (hChr : 0 ≤ nChr)
    (hchroma : ∀ row ∈ chroma, ∀ x ∈ row, 0 ≤ x) :
    ∀ x ∈ chroma_norm_vec nChr chroma, 0 ≤ x := by
  intro x hx
  obtain ⟨m, hm, rfl⟩ := List.mem_map.mp hx
  obtain ⟨row, hrow, rfl⟩ := List.mem_map.mp hm
  have hsum : 0 ≤ row.sum := List.sum_nonneg (hchroma row hrow)
  have hmean : 0 ≤ row.sum / (row.length : ℚ) :=
    div_nonneg hsum (by positivity)
  exact div_nonneg hmean (by positivity)

theorem best_chord_score_nonneg (frame : List ℚ) :
    0 ≤ (best_chord_of_frame frame).2 := by
  rw [best_chord_of_frame_eq_pyfoldmax]
  rcases pyfoldmax_spec Prod.snd (chord_candidates frame) ("N", 0) with
    ⟨heq, _⟩ | ⟨_, _, _, hlt, _, _⟩
  · rw [heq]
  · exact le_of_lt hlt

theorem frame_segments_conf_bounds :
    ∀ (times : List ℚ) (frames : List (List ℚ)),
      ∀ seg ∈ frame_segments times frames,
        0 ≤ seg.confidence ∧ seg.confidence ≤ 1 := by
  intro times
  induction times with
  | nil => intro frames seg hseg; simp [frame_segments] at hseg
  | cons t ts ih =>
    intro frames seg hseg
    cases frames with
    | nil => simp [frame_segments] at hseg
    | cons f fs =>
      rw [show frame_segments (t :: ts) (f :: fs)
          = { time := t, chord := (best_chord_of_frame f).1,
              confidence := min 1 ((best_chord_of_frame f).2 / 3) }
            :: frame_segments ts fs from rfl] at hseg
      rcases List.mem_cons.mp hseg with rfl | htail
      · constructor
        · exact le_min (by norm_num)
            (div_nonneg (best_chord_score_nonneg f) (by norm_num))
        · exact min_le_left _ _
      · exact ih fs seg htail

/-- C9: the key confidence `max(0, min(1, (best+1)/2))` of `_estimate_key`
lies in `[0, 1]` for every input, and every chord segment emitted by
`detect_chords` (confidence `min(1, best_score/3)` with `best_score ≥ 0`,
since the scan starts at 0 and only ever increases) has confidence in
`[0, 1]`. -/
theorem confidences_in_unit_interval :
    (∀ (nMaj nMin nChr : ℚ) (chroma : List (List ℚ)),
      0 ≤ (estimate_key nMaj nMin nChr chroma).2 ∧
      (estimate_key nMaj nMin nChr chroma).2 ≤ 1) ∧
    (∀ (times : List ℚ) (frames : List (List ℚ)),
      ∀ seg ∈ detect_chords_segments times frames,
        0 ≤ seg.confidence ∧ seg.confidence ≤ 1) := by
  constructor
  · intro nMaj nMin nChr chroma
    constructor
    · exact le_max_left 0 _
    · exact max_le (by norm_num) (min_le_left _ _)
  · intro times frames seg hseg
    have hsub : List.Sublist (detect_chords_segments times frames)
        (frame_segments times frames) := by
      rw [show detect_chords_segments times frames
          = merge_consecutive (frame_segments times frames) from rfl]
      rw [merge_consecutive_eq_destutter]
      exact List.destutter_sublist (fun x y : Segment => x.chord ≠ y.chord) _
    exact frame_segments_conf_bounds times frames seg (hsub.subset hseg)

set_option maxRecDepth 8000 in
/-- C9 witness: on a single empty chroma frame at time 0, `detect_chords`
emits the single segment `("N", confidence 0)`, whose confidence the
theorem bounds inside `[0, 1]`. -/
theorem confidences_in_unit_interval_witness :
    (⟨0, "N", min 1 ((0 : ℚ) / 3)⟩ : Segment) ∈ detect_chords_segments [0] [[]] ∧
    (0 ≤ (⟨0, "N", min 1 ((0 : ℚ) / 3)⟩ : Segment).confidence ∧
     (⟨0, "N", min 1 ((0 : ℚ) / 3)⟩ : Segment).confidence ≤ 1) := by
  have hmem : (⟨0, "N", min 1 ((0 : ℚ) / 3)⟩ : Segment) ∈ detect_chords_segments [0] [[]] := by
    rw [show detect_chords_segments [0] [[]]
        = [⟨0, "N", min 1 ((0 : ℚ) / 3)⟩] from rfl]
    exact List.mem_singleton_self _
  exact ⟨hmem, confidences_in_unit_interval.2 [0] [[]] _ hmem⟩

/-- C10: on a chromagram with nonnegative values (and with the three
`np.linalg.norm` scaling parameters nonnegative, as Euclidean norms are),
the best correlation score of `_estimate_key` is a dot product of
nonnegative vectors, hence nonnegative, so the confidence
`max(0, min(1, (best+1)/2))` is at least `1/2`: the reported key
confidence lies in `[1/2, 1]` and the lower clamp at 0 is never active. -/
theorem estimate_key_confidence_at_least_half
    (nMaj nMin nChr : ℚ) (chroma : List (List ℚ))
    (hMaj : 0 ≤ nMaj) (hChr : 0 ≤ nChr)
    (hchroma : ∀ row ∈ chroma, ∀ x ∈ row, 0 ≤ x) :
    1 / 2 ≤ (estimate_key nMaj nMin nChr chroma).2 ∧
    (estimate_key nMaj nMin nChr chroma).2 ≤ 1 := by
  have hlen := key_scores_length nMaj nMin nChr chroma
  have hne : key_scores nMaj nMin nChr chroma ≠ [] := by
    intro hnil
    rw [hnil] at hlen
    simp at hlen
  obtain ⟨m, k, hk, hsome, hmk, hdom, hfirst⟩ :=
    pymax_by_spec_ne (fun s => s.2.2) (key_scores nMaj nMin nChr chroma) hne
  have hchoice : estimate_key_choice nMaj nMin nChr chroma = m := by
    unfold estimate_key_choice
    rw [hsome]
    rfl
  have h0 : 0 < (key_scores nMaj nMin nChr chroma).length := by
    rw [hlen]; norm_num
  have hscore0 :
      ((key_scores nMaj nMin nChr chroma).get ⟨0, h0⟩).2.2
        = dot (chroma_norm_vec nChr chroma) (np_roll (profile_major nMaj) 0) := by
    rw [key_scores_get nMaj nMin nChr chroma 0 h0 (by norm_num)]
    simp
  have hnn : 0 ≤ dot (chroma_norm_vec nChr chroma) (np_roll (profile_major nMaj) 0) :=
    dot_nonneg _ _ (chroma_norm_vec_nonneg nChr chroma hChr hchroma)
      (fun x hx => profile_major_nonneg nMaj hMaj x (mem_np_roll hx))
  have hbest : 0 ≤ (estimate_key_choice nMaj nMin nChr chroma).2.2 := by
    rw [hchoice]
    calc (0 : ℚ) ≤ ((key_scores nMaj nMin nChr chroma).get ⟨0, h0⟩).2.2 := by
          rw [hscore0]; exact hnn
      _ ≤ m.2.2 := hdom 0 h0
  constructor
  · show 1 / 2 ≤ max 0 (min 1 (((estimate_key_choice nMaj nMin nChr chroma).2.2 + 1) / 2))
    have h1 : (1 : ℚ) / 2 ≤ ((estimate_key_choice nMaj nMin nChr chroma).2.2 + 1) / 2 := by
      linarith
    have h2 : (1 : ℚ) / 2 ≤ min 1 (((estimate_key_choice nMaj nMin nChr chroma).2.2 + 1) / 2) :=
      le_min (by norm_num) h1
    exact le_trans h2 (le_max_right _ _)
  · exact max_le (by norm_num) (min_le_left _ _)

/-- C10 witness: with all norm parameters 0 and an empty chromagram every
candidate score is 0, and the theorem instantiates; the confidence there is
exactly `1/2`. -/
theorem estimate_key_confidence_at_least_half_witness :
    ((0 : ℚ) ≤ 0 ∧ (∀ row ∈ ([] : List (List ℚ)), ∀ x ∈ row, 0 ≤ x)) ∧
    (1 / 2 ≤ (estimate_key 0 0 0 []).2 ∧ (estimate_key 0 0 0 []).2 ≤ 1) :=
  ⟨⟨le_refl 0, by simp⟩,
   estimate_key_confidence_at_least_half 0 0 0 [] (le_refl 0) (le_refl 0) (by simp)⟩

/-! ### `load_audio` (src/ml/src/musicai_ml/utils/audio_io.py) -/

/-- A decoded channel-first audio buffer with its sample rate. -/
structure AudioBuf where
  data : List (List ℚ)
  sr : ℕ
deriving DecidableEq

/-- `np.mean(audio, axis=0, keepdims=True)` without the keepdims wrapper:
the pointwise average across channels. -/
def mean_channels (audio : List (List ℚ)) : List ℚ :=
  (List.range (numSamples audio)).map
    (fun j => (audio.map (fun ch => ch.getD j 0)).sum / (audio.length : ℚ))

/-- The post-decode part of `load_audio`: optional mono mix-down (averaging
channels, applied only when more than one channel is present), then
per-channel resampling when the decoded rate differs from the target.
`librosa.resample` is signal processing outside the embedded algorithm, so
it enters as a function parameter `resample ch orig_sr target_sr`. -/
def load_audio (decoded : AudioBuf) (target_sr : ℕ) (mono : Bool)
    (resample : List ℚ → ℕ → ℕ → List ℚ) : AudioBuf :=
  let audio := if mono ∧ decoded.data.length > 1 then [mean_channels decoded.data]
               else decoded.data
  if decoded.sr ≠ target_sr then
    { data := audio.map (fun ch => resample ch decoded.sr target_sr), sr := target_sr }
  else
    { data := audio, sr := decoded.sr }

/-- Exceptions that can surface from the decode paths of `load_audio`.
The first two stand for whatever `soundfile.read` and
`librosa.load`/audioread raise; `decode_error` is the spec's `DecodeError`
taxonomy entry, included so that the claim "the caller receives a
`DecodeError`" is expressible — the code itself never constructs it. -/
inductive PyExc where
  | soundfile_error (msg : String)
  | librosa_error (msg : String)
  | decode_error (msg : String)
deriving DecidableEq

/-- Recognizer for the spec's `DecodeError` error type. -/
def is_decode_error : PyExc → Bool
  | .decode_error _ => true
  | _ => false

/-- The `try soundfile / except: librosa` decode step of `load_audio`: the
primary path's result is used when it succeeds; on any exception the
fallback path runs, and whatever it produces — value or exception — is the
result (the source has no handler around the fallback). -/
def decode_step (primary fallback : Except PyExc AudioBuf) : Except PyExc AudioBuf :=
  match primary with
  | .ok d => .ok d
  | .error _ => fallback

/-- Whole-function view of `load_audio` including the decode step: decode
via primary-then-fallback, then mono mix-down and resampling on success;
a decode failure propagates unchanged. -/
def load_audio_exc (primary fallback : Except PyExc AudioBuf) (target_sr : ℕ)
    (mono : Bool) (resample : List ℚ → ℕ → ℕ → List ℚ) : Except PyExc AudioBuf :=
  (decode_step primary fallback).map (fun d => load_audio d target_sr mono resample)

/-- C8: `load_audio` always returns a buffer whose sample rate is exactly
the requested target, and whose channel count is 1 when mono was requested
(the decoded buffer always has at least one channel) and the decoded
file's original channel count otherwise. -/
theorem load_audio_sr_and_channels (decoded : AudioBuf) (target_sr : ℕ) (mono : Bool)
    (resample : List ℚ → ℕ → ℕ → List ℚ) (hch : 0 < decoded.data.length) :
    (load_audio decoded target_sr mono resample).sr = target_sr ∧
    (load_audio decoded target_sr mono resample).data.length
        = (if mono then 1 else decoded.data.length) := by
  unfold load_audio
  by_cases hsr : decoded.sr ≠ target_sr
  · rw [if_pos hsr]
    refine ⟨rfl, ?_⟩
    rw [List.length_map]
    by_cases hm : mono
    · by_cases h1 : decoded.data.length > 1
      · rw [if_pos ⟨hm, h1⟩]
        simp [hm]
      · rw [if_neg (by intro h; exact h1 h.2)]
        simp [hm]
        omega
    · rw [if_neg (by intro h; exact hm h.1)]
      simp [hm]
  · rw [if_neg hsr]
    push_neg at hsr
    refine ⟨hsr, ?_⟩
    by_cases hm : mono
    · by_cases h1 : decoded.data.length > 1
      · rw [if_pos ⟨hm, h1⟩]
        simp [hm]
      · rw [if_neg (by intro h; exact h1 h.2)]
        simp [hm]
        omega
    · rw [if_neg (by intro h; exact hm h.1)]
      simp [hm]

/-- C8 witness: a decoded stereo buffer at 22050 Hz loaded at 44100 Hz in
mono comes back with sample rate 44100 and one channel. -/
theorem load_audio_sr_and_channels_witness :
    0 < (AudioBuf.mk [[1, 2], [3, 4]] 22050).data.length ∧
    ((load_audio (AudioBuf.mk [[1, 2], [3, 4]] 22050) 44100 true (fun ch _ _ => ch)).sr
        = 44100 ∧
     (load_audio (AudioBuf.mk [[1, 2], [3, 4]] 22050) 44100 true (fun ch _ _ => ch)).data.length
        = (if true then 1 else (AudioBuf.mk [[1, 2], [3, 4]] 22050).data.length)) :=
  ⟨by norm_num,
   load_audio_sr_and_channels (AudioBuf.mk [[1, 2], [3, 4]] 22050) 44100 true
     (fun ch _ _ => ch) (by norm_num)⟩

/-- C3, counterexample: when both decode paths fail, the exception reaching
the caller is the fallback's own exception — here a librosa/audioread
error — not the spec's `DecodeError`, which nothing in the code constructs. -/
theorem load_audio_failure_is_not_decode_error :
    load_audio_exc (.error (.soundfile_error "unsupported container"))
        (.error (.librosa_error "audioread failed")) 44100 false (fun ch _ _ => ch)
      = .error (.librosa_error "audioread failed") ∧
    is_decode_error (.librosa_error "audioread failed") = false :=
  ⟨rfl, rfl⟩

/-- C3, amended: `load_audio` uses the primary decode result when it
succeeds (never consulting the fallback), falls back on primary failure,
and when both paths fail the fallback's own exception propagates unchanged
to the caller — no `DecodeError` wrapping exists in the code. -/
theorem load_audio_decode_strategy (d : AudioBuf) (fallback : Except PyExc AudioBuf)
    (e1 e2 : PyExc) (target_sr : ℕ) (mono : Bool)
    (resample : List ℚ → ℕ → ℕ → List ℚ) :
    load_audio_exc (.ok d) fallback target_sr mono resample
        = .ok (load_audio d target_sr mono resample) ∧
    load_audio_exc (.error e1) (.ok d) target_sr mono resample
        = .ok (load_audio d target_sr mono resample) ∧
    load_audio_exc (.error e1) (.error e2) target_sr mono resample = .error e2 :=
  ⟨rfl, rfl, rfl⟩

/-! ### `_get_demucs_model` / `separate_stems` (src/ml/src/musicai_ml/demucs_service.py) -/

/-- A loaded Demucs model instance: its variant name and its current device
binding (mutable in the source — `model.to(device)` rebinds it in place). -/
structure DemucsModel where
  name : String
  device : String
deriving DecidableEq

/-- Process state of the separation service: `_MODEL_CACHE` (an association
list from model name to the index of the owned instance in the heap
`models`), the heap of live model instances, and a counter of `get_model`
weight-loading calls. -/
structure MLState where
  cache : List (String × ℕ)
  models : List DemucsModel
  loads : ℕ
deriving DecidableEq

/-- `_get_demucs_model(model_name)`: look `_MODEL_CACHE` up by the model
name alone; on a miss call `get_model` (counted in `loads`; the fresh
instance joins the heap with demucs's default CPU placement) and store it
under the name; return the instance (as its heap index). -/
def get_demucs_model (model_name : String) (st : MLState) : ℕ × MLState :=
  match st.cache.lookup model_name with
  | some id => (id, st)
  | none =>
      (st.models.length,
       { cache := (model_name, st.models.length) :: st.cache,
         models := st.models ++ [⟨model_name, "cpu"⟩],
         loads := st.loads + 1 })

/-- `model.to(device)`: rebind instance `id` (if live) to `device`,
in place. -/
def model_to (st : MLState) (id : ℕ) (device : String) : MLState :=
  match st.models[id]? with
  | some m => { st with models := st.models.set id { m with device := device } }
  | none => st

/-- The model-management prefix of `separate_stems`: fetch (or first-load)
the model for `model_name` from the cache, then move it to the requested
device with `model.to(device)`.  The subsequent audio processing and
stem-file writes never touch the cache and are not modelled. -/
def separate_stems_model_phase (model_name device : String) (st : MLState) : ℕ × MLState :=
  let r := get_demucs_model model_name st
  (r.1, model_to r.2 r.1 device)

/-! ### Cache behaviour lemmas -/

theorem lookup_mem {l : List (String × ℕ)} {k : String} {v : ℕ}
    (h : l.lookup k = some v) : (k, v) ∈ l := by
  induction l with
  | nil => simp [List.lookup] at h
  | cons p t ih =>
    rw [List.lookup] at h
    by_cases hk : (k == p.1) = true
    · rw [hk] at h
      have hkp : k = p.1 := eq_of_beq hk
      simp at h
      have hp : (k, v) = p := by
        cases p
        simp at hkp h ⊢
        exact ⟨hkp, h.symm⟩
      rw [hp]
      exact List.mem_cons_self _ _
    · have hk' : (k == p.1) = false := by simpa using hk
      rw [hk'] at h
      exact List.mem_cons_of_mem _ (ih h)

theorem model_to_cache (st : MLState) (id : ℕ) (d : String) :
    (model_to st id d).cache = st.cache := by
  unfold model_to
  cases hm : st.models[id]? <;> rfl

theorem model_to_loads (st : MLState) (id : ℕ) (d : String) :
    (model_to st id d).loads = st.loads := by
  unfold model_to
  cases hm : st.models[id]? <;> rfl

/-- On a cache hit, `separate_stems_model_phase` returns the cached index,
performs no load, and leaves the cache unchanged. -/
theorem phase_hit (name device : String) (st : MLState) (id : ℕ)
    (h : st.cache.lookup name = some id) :
    (separate_stems_model_phase name device st).1 = id ∧
    (separate_stems_model_phase name device st).2.loads = st.loads ∧
    (separate_stems_model_phase name device st).2.cache = st.cache := by
  unfold separate_stems_model_phase get_demucs_model
  rw [h]
  exact ⟨rfl, model_to_loads _ _ _, model_to_cache _ _ _⟩

/-- On a cache miss, `separate_stems_model_phase` loads once, stores the
fresh instance's index under the model name, and returns that index. -/
theorem phase_miss (name device : String) (st : MLState)
    (h : st.cache.lookup name = none) :
    (separate_stems_model_phase name device st).1 = st.models.length ∧
    (separate_stems_model_phase name device st).2.loads = st.loads + 1 ∧
    (separate_stems_model_phase name device st).2.cache
        = (name, st.models.length) :: st.cache := by
  unfold separate_stems_model_phase get_demucs_model
  rw [h]
  exact ⟨rfl, model_to_loads _ _ _, model_to_cache _ _ _⟩

/-- C6: starting from a state where the model name is not yet cached, the
first stem-separation call loads the model exactly once; a second call for
the same (model name, device) key returns the very same cached instance
(same heap index) and performs no further load — the load count after both
calls is the initial count plus one. -/
theorem separate_stems_second_call_is_cache_hit (name device : String) (st : MLState)
    (hfresh : st.cache.lookup name = none) :
    ((separate_stems_model_phase name device
        (separate_stems_model_phase name device st).2).1
      = (separate_stems_model_phase name device st).1) ∧
    (separate_stems_model_phase name device st).2.loads = st.loads + 1 ∧
    ((separate_stems_model_phase name device
        (separate_stems_model_phase name device st).2).2.loads = st.loads + 1) := by
  obtain ⟨hid1, hloads1, hcache1⟩ := phase_miss name device st hfresh
  have hlookup1 : (separate_stems_model_phase name device st).2.cache.lookup name
      = some st.models.length := by
    rw [hcache1]
    simp [List.lookup]
  obtain ⟨hid2, hloads2, _⟩ :=
    phase_hit name device (separate_stems_model_phase name device st).2
      st.models.length hlookup1
  refine ⟨?_, hloads1, ?_⟩
  · rw [hid1, hid2]
  · rw [hloads2, hloads1]

/-- C6 witness: from the empty state, two calls for `("htdemucs", "cpu")`
return the same instance and load exactly once. -/
theorem separate_stems_second_call_is_cache_hit_witness :
    (MLState.mk [] [] 0).cache.lookup "htdemucs" = none ∧
    (((separate_stems_model_phase "htdemucs" "cpu"
         (separate_stems_model_phase "htdemucs" "cpu" (MLState.mk [] [] 0)).2).1
       = (separate_stems_model_phase "htdemucs" "cpu" (MLState.mk [] [] 0)).1) ∧
     (separate_stems_model_phase "htdemucs" "cpu" (MLState.mk [] [] 0)).2.loads = 0 + 1 ∧
     ((separate_stems_model_phase "htdemucs" "cpu"
         (separate_stems_model_phase "htdemucs" "cpu" (MLState.mk [] [] 0)).2).2.loads
       = 0 + 1)) :=
  ⟨rfl, separate_stems_second_call_is_cache_hit "htdemucs" "cpu" (MLState.mk [] [] 0) rfl⟩

theorem model_to_models_length (st : MLState) (id : ℕ) (d : String) :
    (model_to st id d).models.length = st.models.length := by
  unfold model_to
  cases hm : st.models[id]? <;> simp [List.length_set]

theorem model_to_device (st : MLState) (id : ℕ) (d : String) (h : id < st.models.length) :
    ((model_to st id d).models[id]?).map DemucsModel.device = some d := by
  unfold model_to
  rw [List.getElem?_eq_getElem h]
  show ((st.models.set id _)[id]?).map DemucsModel.device = some d
  rw [List.getElem?_set_eq_of_lt _ h]
  rfl

theorem get_demucs_model_props (name : String) (st : MLState)
    (hwf : ∀ p ∈ st.cache, p.2 < st.models.length) :
    (get_demucs_model name st).1 < (get_demucs_model name st).2.models.length ∧
    (get_demucs_model name st).2.cache.lookup name
        = some (get_demucs_model name st).1 := by
  unfold get_demucs_model
  cases h : st.cache.lookup name with
  | some id =>
    exact ⟨hwf _ (lookup_mem h), h⟩
  | none =>
    refine ⟨by simp, ?_⟩
    simp [List.lookup]

/-- C2, counterexample: two separation requests for the same model name
`"htdemucs"` but different devices (`"cpu"`, then `"cuda"`), from a fresh
process state, use one and the same cache entry (same heap index, a single
`get_model` load) — not distinct entries — and the shared instance's
device binding is not fixed at first load: after the second call the
instance loaded for `"cpu"` sits on `"cuda"`. -/
theorem model_cache_shared_entry_counterexample :
    ((separate_stems_model_phase "htdemucs" "cuda"
        (separate_stems_model_phase "htdemucs" "cpu" (MLState.mk [] [] 0)).2).1
      = (separate_stems_model_phase "htdemucs" "cpu" (MLState.mk [] [] 0)).1) ∧
    ((separate_stems_model_phase "htdemucs" "cuda"
        (separate_stems_model_phase "htdemucs" "cpu" (MLState.mk [] [] 0)).2).2.loads = 1) ∧
    (((separate_stems_model_phase "htdemucs" "cpu" (MLState.mk [] [] 0)).2.models[
        (separate_stems_model_phase "htdemucs" "cpu" (MLState.mk [] [] 0)).1]?).map
      DemucsModel.device = some "cpu") ∧
    (((separate_stems_model_phase "htdemucs" "cuda"
        (separate_stems_model_phase "htdemucs" "cpu" (MLState.mk [] [] 0)).2).2.models[
        (separate_stems_model_phase "htdemucs" "cpu" (MLState.mk [] [] 0)).1]?).map
      DemucsModel.device = some "cuda") := by
  refine ⟨rfl, rfl, rfl, rfl⟩

/-- C2, amended: `_MODEL_CACHE` is keyed by model name alone, so two
separation requests with the same model name but different device
selectors share a single cache entry and a single model instance (the
second call performs no load), and `separate_stems` rebinds that shared
instance to the requested device on every call (`model.to(device)`): the
device binding is mutated per call, not fixed at first load. -/
theorem model_cache_keyed_by_name_only (name d1 d2 : String) (st : MLState)
    (hwf : ∀ p ∈ st.cache, p.2 < st.models.length) :
    ((separate_stems_model_phase name d2 (separate_stems_model_phase name d1 st).2).1
        = (separate_stems_model_phase name d1 st).1) ∧
    ((separate_stems_model_phase name d2 (separate_stems_model_phase name d1 st).2).2.loads
        = (separate_stems_model_phase name d1 st).2.loads) ∧
    (((separate_stems_model_phase name d2 (separate_stems_model_phase name d1 st).2).2.models[
        (separate_stems_model_phase name d1 st).1]?).map DemucsModel.device = some d2) := by
  obtain ⟨hlt, hlk⟩ := get_demucs_model_props name st hwf
  have hphase1 : separate_stems_model_phase name d1 st
      = ((get_demucs_model name st).1,
         model_to (get_demucs_model name st).2 (get_demucs_model name st).1 d1) := rfl
  have hcache1 : (separate_stems_model_phase name d1 st).2.cache.lookup name
      = some (separate_stems_model_phase name d1 st).1 := by
    rw [hphase1, model_to_cache]
    exact hlk
  have hget2 : get_demucs_model name (separate_stems_model_phase name d1 st).2
      = ((separate_stems_model_phase name d1 st).1,
         (separate_stems_model_phase name d1 st).2) := by
    unfold get_demucs_model
    rw [hcache1]
  have hphase2 : separate_stems_model_phase name d2 (separate_stems_model_phase name d1 st).2
      = ((separate_stems_model_phase name d1 st).1,
         model_to (separate_stems_model_phase name d1 st).2
           (separate_stems_model_phase name d1 st).1 d2) := by
    rw [show separate_stems_model_phase name d2 (separate_stems_model_phase name d1 st).2
        = ((get_demucs_model name (separate_stems_model_phase name d1 st).2).1,
           model_to (get_demucs_model name (separate_stems_model_phase name d1 st).2).2
             (get_demucs_model name (separate_stems_model_phase name d1 st).2).1 d2) from rfl]
    rw [hget2]
  have hlt1 : (separate_stems_model_phase name d1 st).1
      < (separate_stems_model_phase name d1 st).2.models.length := by
    rw [hphase1, model_to_models_length]
    exact hlt
  refine ⟨by rw [hphase2], ?_, ?_⟩
  · rw [hphase2, model_to_loads]
  · rw [hphase2]
    exact model_to_device _ _ _ hlt1

/-- Amended-C2 witness: instantiating at the fresh state and the
`("htdemucs", "cpu")` then `("htdemucs", "cuda")` calls. -/
theorem model_cache_keyed_by_name_only_witness :
    (∀ p ∈ (MLState.mk [] [] 0).cache, p.2 < (MLState.mk [] [] 0).models.length) ∧
    (((separate_stems_model_phase "htdemucs" "cuda"
        (separate_stems_model_phase "htdemucs" "cpu" (MLState.mk [] [] 0)).2).1
        = (separate_stems_model_phase "htdemucs" "cpu" (MLState.mk [] [] 0)).1) ∧
     ((separate_stems_model_phase "htdemucs" "cuda"
        (separate_stems_model_phase "htdemucs" "cpu" (MLState.mk [] [] 0)).2).2.loads
        = (separate_stems_model_phase "htdemucs" "cpu" (MLState.mk [] [] 0)).2.loads) ∧
     (((separate_stems_model_phase "htdemucs" "cuda"
        (separate_stems_model_phase "htdemucs" "cpu" (MLState.mk [] [] 0)).2).2.models[
        (separate_stems_model_phase "htdemucs" "cpu" (MLState.mk [] [] 0)).1]?).map
       DemucsModel.device = some "cuda")) :=
  ⟨by simp,
   model_cache_keyed_by_name_only "htdemucs" "cpu" "cuda" (MLState.mk [] [] 0) (by simp)⟩

end MusicAI
